import Mathlib

/-!
Verification of a two-stage JSON parsing pipeline (tokenizer + recursive
descent parser) written in Rust (`src/main.rs`), embedded shallowly:

* raw input text is a `List Char`;
* the tokenizer is a fueled recursion `tokenizeAux` (the Rust `while` loop
  consumes at least one character per iteration, so `length + 1` fuel always
  suffices; `tokenizeAux_total` proves the fuel sentinel is unreachable);
* the Rust mutual recursion `parse_value` / `parse_object` / `parse_array`
  together with their two in-function loops is combined into one fueled step
  function `parseRun` over a call descriptor `PCall`; `parseRun_adequate`
  proves that the fuel used by `Parser.parse` is always sufficient;
* Rust `f64` number tokens are modelled as exact rationals (`Rat`): the
  grammar accepted by `f64::from_str` is reproduced exactly (restricted to
  the characters the number scanner can ever produce, which excludes the
  `inf` / `nan` word forms), and the value of an accepted decimal string is
  its exact rational value.  IEEE-754 rounding is abstracted away; every
  concrete number appearing in a theorem below is exactly representable;
* the Rust `HashMap<String, JsonValue>` is modelled as an association list
  with the `HashMap::insert` semantics (overwrite the existing binding for
  an equal key, otherwise append).
-/

/-- Lexical tokens, from `enum Token` in `src/main.rs`. -/
inductive Token where
  | leftBrace
  | rightBrace
  | leftBracket
  | rightBracket
  | colon
  | comma
  | string (s : String)
  | number (n : Rat)
  | boolean (b : Bool)
  | null
deriving DecidableEq, Repr

/-- Parsed values, from `enum JsonValue` in `src/main.rs`.  The Rust
`HashMap<String, JsonValue>` is modelled as an association list whose insert
operation (`insertAssoc`) has the `HashMap::insert` overwrite semantics. -/
inductive JsonValue where
  | null
  | boolean (b : Bool)
  | number (n : Rat)
  | string (s : String)
  | array (xs : List JsonValue)
  | object (m : List (String × JsonValue))

/-- The escape-decoding table of the string scanner in `tokenize`
(`src/main.rs` lines 76-89): the inner `match next_char`.  The arms carry
disjoint character patterns, so their order is irrelevant and differs from
the source order. -/
def decodeEscape : Char → Option Char
  | '"' => some '"'
  | '/' => some '/'
  | '\\' => some '\\'
  | 'n' => some '\n'
  | 'b' => some '\x08'
  | 'r' => some '\r'
  | 'f' => some '\x0c'
  | 't' => some '\t'
  | _ => none

/-- The string-scanning loop of `tokenize` (`src/main.rs` lines 66-97),
entered after the opening quote has been consumed.  Returns the decoded
content together with the unconsumed remainder of the input.  As in the
source: the loop simply stops at end of input (no unclosed-string error),
and a backslash that is the last character is consumed without effect
(`if let Some(next_char) = chars.next()` with `None` does nothing). -/
def scanString : List Char → Except String (List Char × List Char)
  | [] => .ok ([], [])
  | '"' :: rest => .ok ([], rest)
  | '\\' :: rest =>
    match rest with
    | [] => .ok ([], [])
    | e :: rest' =>
      match decodeEscape e with
      | none => .error "Secuencia de escape inválida"
      | some d =>
        match scanString rest' with
        | .error msg => .error msg
        | .ok (s, r) => .ok (d :: s, r)
  | c :: rest =>
    match scanString rest with
    | .error msg => .error msg
    | .ok (s, r) => .ok (c :: s, r)

/-- The character class consumed by the number scanner of `tokenize`
(`src/main.rs` line 106). -/
def isNumChar (c : Char) : Bool :=
  c.isDigit || c = '.' || c = 'e' || c = 'E' || c = '+' || c = '-'

/-- The number-scanning loop of `tokenize` (`src/main.rs` lines 105-113):
consume the maximal run of number characters, return it with the rest. -/
def scanNumRun : List Char → List Char × List Char
  | [] => ([], [])
  | c :: rest =>
    if isNumChar c then
      let (run, r) := scanNumRun rest
      (c :: run, r)
    else ([], c :: rest)

/-- Strip one optional leading sign character, reporting whether it was a
minus (used to model `f64::from_str` for both the mantissa and the
exponent). -/
def splitSign : List Char → Bool × List Char
  | '-' :: r => (true, r)
  | '+' :: r => (false, r)
  | l => (false, l)

/-- Maximal leading run of decimal digits (used to model `f64::from_str`). -/
def splitDigits : List Char → List Char × List Char
  | [] => ([], [])
  | c :: rest =>
    if c.isDigit then
      let (d, r) := splitDigits rest
      (c :: d, r)
    else ([], c :: rest)

def digitVal (c : Char) : Nat := c.toNat - '0'.toNat

def digitsToNat (l : List Char) : Nat :=
  l.foldl (fun a c => 10 * a + digitVal c) 0

def pow10 : Int → Rat
  | .ofNat n => (10 : Rat) ^ n
  | .negSucc n => 1 / (10 : Rat) ^ (n + 1)

/-- Model of `number.parse::<f64>()` (`src/main.rs` line 115).  The grammar
is that of Rust `f64::from_str` restricted to the characters the number
scanner can produce (digits, `.`, `e`, `E`, `+`, `-` — so the `inf`/`nan`
word forms of the full grammar are unreachable and omitted):

  Sign? (Digit+ | Digit+ '.' Digit* | Digit* '.' Digit+) ([eE] Sign? Digit+)?

A string matching the grammar is mapped to its exact rational value
(IEEE-754 rounding is abstracted away); a string that does not match
yields `none`, which `tokenize` turns into the invalid-number error. -/
def parseF64? (l : List Char) : Option Rat :=
  let (negSign, l1) := splitSign l
  let sgn : Rat := if negSign then -1 else 1
  let (ip, l2) := splitDigits l1
  let (fp, l3) :=
    match l2 with
    | '.' :: r => splitDigits r
    | _ => ([], l2)
  if ip.isEmpty && fp.isEmpty then none
  else
    let mant : Rat := (digitsToNat ip : Rat) + (digitsToNat fp : Rat) / (10 : Rat) ^ fp.length
    match l3 with
    | [] => some (sgn * mant)
    | e :: r =>
      if e = 'e' || e = 'E' then
        let (negExp, r1) := splitSign r
        let esgn : Int := if negExp then -1 else 1
        let (ed, r2) := splitDigits r1
        if ed.isEmpty || !r2.isEmpty then none
        else some (sgn * mant * pow10 (esgn * (digitsToNat ed : Int)))
      else none

/-- Prepend a freshly produced token to the result of tokenizing the rest of
the input (the recursive rendering of `tokens.push(...)`). -/
def consTok (t : Token) : Option (Except String (List Token)) →
    Option (Except String (List Token))
  | none => none
  | some (.error e) => some (.error e)
  | some (.ok ts) => some (.ok (t :: ts))

/-- The dispatch loop of `tokenize` (`src/main.rs` lines 26-164), with fuel
counting loop iterations (`none` = out of fuel; every iteration consumes at
least one character, so `length + 1` fuel suffices — `tokenizeAux_total`).

The Rust `match` tests whitespace first and the digit/`-` class before the
`t`/`f`/`n` literal branches; since all the character classes involved are
pairwise disjoint, dispatching on the structural/literal characters first
(as done here, so that they can be pattern-matched) is equivalent.
Whitespace is modelled as ASCII whitespace (`Char.isWhitespace`); no claim
involves non-ASCII whitespace.  The quotes around the literal keyword in the
Rust error texts are dropped, and `format!("Carácter inesperado: {}", c)`
is rendered by appending `c` to the message. -/
def tokenizeAux : Nat → List Char → Option (Except String (List Token))
  | 0, _ => none
  | _ + 1, [] => some (.ok [])
  | fuel + 1, '{' :: rest => consTok .leftBrace (tokenizeAux fuel rest)
  | fuel + 1, '}' :: rest => consTok .rightBrace (tokenizeAux fuel rest)
  | fuel + 1, '[' :: rest => consTok .leftBracket (tokenizeAux fuel rest)
  | fuel + 1, ']' :: rest => consTok .rightBracket (tokenizeAux fuel rest)
  | fuel + 1, ':' :: rest => consTok .colon (tokenizeAux fuel rest)
  | fuel + 1, ',' :: rest => consTok .comma (tokenizeAux fuel rest)
  | fuel + 1, '"' :: rest =>
    match scanString rest with
    | .error e => some (.error e)
    | .ok (s, r) => consTok (.string (String.mk s)) (tokenizeAux fuel r)
  | fuel + 1, 't' :: rest =>
    if ('t' :: rest).take 4 = ['t', 'r', 'u', 'e'] then
      consTok (.boolean true) (tokenizeAux fuel (('t' :: rest).drop 4))
    else some (.error "Token inválido: esperaba true")
  | fuel + 1, 'f' :: rest =>
    if ('f' :: rest).take 5 = ['f', 'a', 'l', 's', 'e'] then
      consTok (.boolean false) (tokenizeAux fuel (('f' :: rest).drop 5))
    else some (.error "Token inválido: esperaba false")
  | fuel + 1, 'n' :: rest =>
    if ('n' :: rest).take 4 = ['n', 'u', 'l', 'l'] then
      consTok .null (tokenizeAux fuel (('n' :: rest).drop 4))
    else some (.error "Token inválido: esperaba null")
  | fuel + 1, c :: rest =>
    if c.isWhitespace then tokenizeAux fuel rest
    else if c.isDigit || c = '-' then
      let (run, r1) :=
        if c = '-' then
          let (d, r) := scanNumRun rest
          ('-' :: d, r)
        else scanNumRun (c :: rest)
      match parseF64? run with
      | some n => consTok (.number n) (tokenizeAux fuel r1)
      | none => some (.error "Número inválido")
    else some (.error ("Carácter inesperado: " ++ c.toString))

/-- The function `fn tokenize(input: &str) -> Result<Vec<Token>, String>`.  The fuel
sentinel branch is unreachable (`tokenizeAux_total`). -/
def tokenize (l : List Char) : Except String (List Token) :=
  match tokenizeAux (l.length + 1) l with
  | some r => r
  | none => .error "tokenizer out of fuel"

/-- The state `struct Parser` with fields `tokens: Vec<Token>` and `current: usize` (`src/main.rs`
lines 168-171). -/
structure Parser where
  tokens : List Token
  current : Nat
deriving Repr

/-- Constructor `Parser::new` (`src/main.rs` lines 174-179). -/
def Parser.new (tokens : List Token) : Parser := ⟨tokens, 0⟩

/-- Method `Parser::peek` (`src/main.rs` lines 181-183): the token at the cursor,
without advancing. -/
def Parser.peek (p : Parser) : Option Token :=
  p.tokens[p.current]?

/-- Method `Parser::advance` (`src/main.rs` lines 185-190): advance the cursor if it
is not already past the end, then return the token at `current - 1`.  At the
end of a non-empty sequence this returns the last token again without
moving.  (With `current = 0` and no tokens the Rust `self.current - 1`
would underflow `usize`; that state is unreachable from `parse`, in which
every call to `advance` is preceded by a successful `peek`; the `Nat`
truncated subtraction used here makes that case return `none`.) -/
def Parser.advance (p : Parser) : Option Token × Parser :=
  let c' := if p.current < p.tokens.length then p.current + 1 else p.current
  (p.tokens[c' - 1]?, { p with current := c' })

/-- The call `map.insert(key, value)` on the Rust `HashMap<String, JsonValue>`
(`src/main.rs` line 249), modelled on the association list: overwrite the
binding of an equal key in place, otherwise append. -/
def insertAssoc (m : List (String × JsonValue)) (k : String) (v : JsonValue) :
    List (String × JsonValue) :=
  match m with
  | [] => [(k, v)]
  | (k', v') :: rest =>
    if k' = k then (k, v) :: rest else (k', v') :: insertAssoc rest k v

/-- Lookup on the modelled `HashMap`: the value bound to a key. -/
def lookupAssoc (m : List (String × JsonValue)) (k : String) : Option JsonValue :=
  match m with
  | [] => none
  | (k', v') :: rest => if k' = k then some v' else lookupAssoc rest k

/-- Call descriptors for the combined parser step function `parseRun`: the
Rust mutual recursion `parse_value` / `parse_object` / `parse_array` and the
`while` loops inside the latter two.  `objectLoop` carries the `map` built
so far, `arrayLoop` the `array` built so far. -/
inductive PCall where
  | value (p : Parser)
  | objectStart (p : Parser)
  | objectLoop (p : Parser) (map : List (String × JsonValue))
  | arrayStart (p : Parser)
  | arrayLoop (p : Parser) (arr : List JsonValue)

/-- The parser state a call descriptor starts from. -/
def PCall.pstate : PCall → Parser
  | .value p => p
  | .objectStart p => p
  | .objectLoop p _ => p
  | .arrayStart p => p
  | .arrayLoop p _ => p

/-- One fueled step function combining `Parser::parse_value` (`src/main.rs`
lines 195-223), `Parser::parse_object` (lines 225-265) and
`Parser::parse_array` (lines 267-292).  `none` means out of fuel; by
`parseRun_adequate` the fuel supplied by `Parser.parse` always suffices, so
every run ends in `some (.ok v, p')` or `some (.error e, p')`.

Control-flow notes tying the branches to the source:
* `value`: the `match self.peek()` dispatch.  For the scalar cases the Rust
  code calls `advance` and reads the value out of the returned token (for a
  string via `if let ... else unreachable!()`); since `peek` has just
  returned that same token, the value is taken from the peeked token here.
* `objectStart` / `arrayStart`: the unconditional `self.advance()` that
  consumes the opening delimiter before the loop.
* `objectLoop` / `arrayLoop`: one iteration of the `while let Some(token) =
  self.peek()` loop; falling out of the loop at end of input produces the
  "not closed" error after the loop.  The check for the closing delimiter at
  the top of the loop comes before the key/element is read, exactly as in
  the source.  After a parsed member, a comma is consumed and the loop
  `continue`s, while a closing delimiter `continue`s without consuming (the
  top-of-loop check then consumes it); any other token (or end of input
  leaving the loop) is an error.  The colon, comma and closing-delimiter
  punctuation quoted inside the Rust error texts is paraphrased in words
  here (dos puntos, coma, llave/corchete de cierre). -/
def parseRun : Nat → PCall → Option (Except String JsonValue × Parser)
  | 0, _ => none
  | fuel + 1, .value p =>
    match p.peek with
    | none => some (.error "Fin inesperado de entrada", p)
    | some .leftBrace => parseRun fuel (.objectStart p)
    | some .leftBracket => parseRun fuel (.arrayStart p)
    | some (.string s) => some (.ok (.string s), p.advance.2)
    | some (.number n) => some (.ok (.number n), p.advance.2)
    | some (.boolean b) => some (.ok (.boolean b), p.advance.2)
    | some .null => some (.ok .null, p.advance.2)
    | some _ => some (.error "Token inesperado", p)
  | fuel + 1, .objectStart p => parseRun fuel (.objectLoop p.advance.2 [])
  | fuel + 1, .objectLoop p map =>
    match p.peek with
    | none => some (.error "Objeto no cerrado correctamente", p)
    | some .rightBrace => some (.ok (.object map), p.advance.2)
    | some _ =>
      match p.advance with
      | (none, p1) => some (.error "Se esperaba una key", p1)
      | (some (.string key), p1) =>
        match p1.advance with
        | (some .colon, p2) =>
          match parseRun fuel (.value p2) with
          | none => none
          | some (.error e, p3) => some (.error e, p3)
          | some (.ok v, p3) =>
            match p3.peek with
            | some .comma => parseRun fuel (.objectLoop p3.advance.2 (insertAssoc map key v))
            | some .rightBrace => parseRun fuel (.objectLoop p3 (insertAssoc map key v))
            | some _ => some (.error "Se esperaba coma o llave de cierre", p3)
            | none => some (.error "Objeto no cerrado correctamente", p3)
        | (_, p2) => some (.error "Se esperaba dos puntos", p2)
      | (some _, p1) => some (.error "La key debe ser un string", p1)
  | fuel + 1, .arrayStart p => parseRun fuel (.arrayLoop p.advance.2 [])
  | fuel + 1, .arrayLoop p arr =>
    match p.peek with
    | none => some (.error "Array no cerrado correctamente", p)
    | some .rightBracket => some (.ok (.array arr), p.advance.2)
    | some _ =>
      match parseRun fuel (.value p) with
      | none => none
      | some (.error e, p1) => some (.error e, p1)
      | some (.ok v, p1) =>
        match p1.peek with
        | some .comma => parseRun fuel (.arrayLoop p1.advance.2 (arr ++ [v]))
        | some .rightBracket => parseRun fuel (.arrayLoop p1 (arr ++ [v]))
        | some _ => some (.error "Se esperaba coma o corchete de cierre", p1)
        | none => some (.error "Array no cerrado correctamente", p1)

/-- Method `Parser::parse` (`src/main.rs` lines 192-194): parse a single value
starting at the cursor.  The fuel `3 * length + 1` is always sufficient
(`parseRun_adequate`), so the result is never `none` when starting from
`Parser.new`. -/
def Parser.parse (p : Parser) : Option (Except String JsonValue × Parser) :=
  parseRun (3 * p.tokens.length + 1) (.value p)

/-- Run the parser on a token sequence from the start, as `main` does:
`Parser::new(tokens)` followed by `parser.parse()`.  The fuel sentinel is
unreachable by `claim_C10_parser_total`. -/
def Parser.runParse (ts : List Token) : Except String JsonValue :=
  match (Parser.new ts).parse with
  | some (r, _) => r
  | none => .error "parser out of fuel"

/-- The whole pipeline of `main` (`src/main.rs` lines 295-317):
tokenize, then parse; a tokenizer error aborts before parsing. -/
def parseJson (l : List Char) : Except String JsonValue :=
  match tokenize l with
  | .error e => .error e
  | .ok ts => Parser.runParse ts

/-- Precondition under which each call descriptor is reached from
`Parser.parse` (the opening-delimiter calls happen only after `peek` has
seen the delimiter, hence strictly inside the sequence). -/
def PCall.pre : PCall → Prop
  | .value p => p.current ≤ p.tokens.length
  | .objectStart p => p.current < p.tokens.length
  | .objectLoop p _ => p.current ≤ p.tokens.length
  | .arrayStart p => p.current < p.tokens.length
  | .arrayLoop p _ => p.current ≤ p.tokens.length

/-- Fuel amount sufficient for each call descriptor (three fuel units per
remaining token, plus a constant depending on the call kind). -/
def PCall.bound : PCall → Nat
  | .value p => 3 * (p.tokens.length - p.current) + 1
  | .objectStart p => 3 * (p.tokens.length - p.current)
  | .objectLoop p _ => 3 * (p.tokens.length - p.current) + 1
  | .arrayStart p => 3 * (p.tokens.length - p.current)
  | .arrayLoop p _ => 3 * (p.tokens.length - p.current) + 2

/-- Spec-side description of a string body that reaches end of input before
an unescaped closing quote: scanning left to right, a bare `"` means the
string does close (`none`); a backslash escapes the following character
through the escape table (an invalid escape is `none`, a backslash that is
the last character is dropped); all other characters are kept verbatim.
`some s` means the body never closes and `s` is the decoded content read up
to end of input. -/
def unterminatedScan : List Char → Option (List Char)
  | [] => some []
  | '"' :: _ => none
  | '\\' :: rest =>
    match rest with
    | [] => some []
    | e :: rest' =>
      match decodeEscape e with
      | none => none
      | some d => (unterminatedScan rest').map (d :: ·)
  | c :: rest => (unterminatedScan rest).map (c :: ·)

theorem scanString_rest_length : ∀ l s r, scanString l = .ok (s, r) → r.length ≤ l.length := by
  intro l
  induction l using scanString.induct <;> intro s r h <;> simp only [scanString] at h <;>
    (repeat' split at h) <;> simp_all <;> try omega

theorem scanNumRun_spec : ∀ l, scanNumRun l = (l.takeWhile isNumChar, l.dropWhile isNumChar) := by
  intro l
  induction l with
  | nil => rfl
  | cons c rest ih =>
    simp only [scanNumRun, List.takeWhile, List.dropWhile, ih]
    split <;> simp_all

theorem scanNumRun_rest_length : ∀ l, (scanNumRun l).2.length ≤ l.length := by
  intro l
  induction l with
  | nil => simp [scanNumRun]
  | cons c rest ih =>
    simp only [scanNumRun]
    split <;> simp <;> omega

theorem consTok_isSome (t : Token) (r : Option (Except String (List Token))) :
    (consTok t r).isSome = r.isSome := by
  rcases r with _ | r; · rfl
  rcases r with e | ts <;> rfl

theorem tokenizeAux_total : ∀ fuel l, l.length < fuel → (tokenizeAux fuel l).isSome := by
  intro fuel l
  induction fuel, l using tokenizeAux.induct <;> intro h <;>
    simp only [tokenizeAux, consTok_isSome, List.length_cons] at *
  case case1 => omega
  case case3 ih => exact ih (by omega)
  case case4 ih => exact ih (by omega)
  case case5 ih => exact ih (by omega)
  case case6 ih => exact ih (by omega)
  case case7 ih => exact ih (by omega)
  case case8 ih => exact ih (by omega)
  case case9 hscan => rw [hscan]; rfl
  case case10 hscan ih =>
    rw [hscan]
    simp only [consTok_isSome]
    exact ih (by have := scanString_rest_length _ _ _ hscan; omega)
  case case11 htake ih =>
    rw [if_pos htake, consTok_isSome]
    exact ih (by simp; omega)
  case case12 htake => rw [if_neg htake]; rfl
  case case13 htake ih =>
    rw [if_pos htake, consTok_isSome]
    exact ih (by simp; omega)
  case case14 htake => rw [if_neg htake]; rfl
  case case15 htake ih =>
    rw [if_pos htake, consTok_isSome]
    exact ih (by simp; omega)
  case case16 htake => rw [if_neg htake]; rfl
  case case2 => rfl
  case case17 hw ih => rw [if_pos hw]; exact ih (by omega)
  case case18 fuel c rest _ _ _ _ _ _ _ _ _ _ hnw hdig run r n hpf ih hpair =>
    rw [if_neg hnw, if_pos hdig, hpair, hpf]
    simp only [consTok_isSome]
    apply ih
    have hlen := scanNumRun_rest_length rest
    have hr : r.length ≤ rest.length := by
      split at hpair
      · injection hpair with h1 h2
        rw [← h2]; exact hlen
      · rename_i hc
        have hcd : c.isDigit = true := by simpa [hc] using hdig
        have hd : isNumChar c = true := by simp [isNumChar, hcd]
        rw [show scanNumRun (c :: rest) = (c :: (scanNumRun rest).1, (scanNumRun rest).2) from by
          simp [scanNumRun, hd]] at hpair
        injection hpair with h1 h2
        rw [← h2]; exact hlen
    omega
  case case19 fuel c rest _ _ _ _ _ _ _ _ _ _ hnw hdig run r hpf hpair =>
    rw [if_neg hnw, if_pos hdig, hpair, hpf]
    rfl
  case case20 fuel c rest _ _ _ _ _ _ _ _ _ _ hnw hdig =>
    rw [if_neg hnw, if_neg hdig]
    rfl


theorem unterminatedScan_scanString :
    ∀ l s, unterminatedScan l = some s → scanString l = .ok (s, []) := by
  intro l
  induction l using unterminatedScan.induct <;> intro s h <;>
    simp only [unterminatedScan, scanString] at * <;> (repeat' split at h) <;> simp_all
  case case5.h_2 e rest' d1 x1 d hdd ih heq =>
    obtain ⟨a, ha, rfl⟩ := h
    rw [ih a ha]
  case case6 c rest hq hb ih =>
    obtain ⟨a, ha, rfl⟩ := h
    rw [ih a ha]

theorem tokenize_unterminated (l : List Char) (s : List Char)
    (h : unterminatedScan l = some s) :
    tokenize ('"' :: l) = .ok [Token.string (String.mk s)] := by
  have hs := unterminatedScan_scanString l s h
  simp only [tokenize, List.length_cons, tokenizeAux, hs, consTok]

theorem advance_tokens (p : Parser) : p.advance.2.tokens = p.tokens := rfl

theorem advance_current (p : Parser) :
    p.advance.2.current = if p.current < p.tokens.length then p.current + 1 else p.current := rfl

theorem advance_current_mono (p : Parser) : p.current ≤ p.advance.2.current := by
  rw [advance_current]; split <;> omega

theorem advance_current_le (p : Parser) (h : p.current ≤ p.tokens.length) :
    p.advance.2.current ≤ p.tokens.length := by
  rw [advance_current]; split <;> omega

theorem advance_current_succ (p : Parser) (h : p.current < p.tokens.length) :
    p.advance.2.current = p.current + 1 := by rw [advance_current, if_pos h]

theorem advance_eq_of_lt (p : Parser) (h : p.current < p.tokens.length) :
    p.advance = (p.tokens[p.current]?, { p with current := p.current + 1 }) := by
  simp only [Parser.advance, if_pos h, Nat.add_sub_cancel]

theorem peek_some_lt (p : Parser) (t : Token) (h : p.peek = some t) :
    p.current < p.tokens.length := by
  simp only [Parser.peek] at h
  by_contra hc
  push_neg at hc
  rw [List.getElem?_eq_none hc] at h
  exact Option.noConfusion h

/-- Unpack an equation about `Parser.advance` into the facts used below. -/
theorem advance_pair (p : Parser) (t : Option Token) (q : Parser)
    (h : p.advance = (t, q)) : q.tokens = p.tokens ∧ p.current ≤ q.current := by
  have hq : q = p.advance.2 := by rw [h]
  subst hq
  exact ⟨advance_tokens p, advance_current_mono p⟩

/-- Injectivity of the result shape `some (res, p)` of `parseRun`. -/
theorem some_pair_inj {α β : Type} {x res : α} {y q : β}
    (h : some (x, y) = some (res, q)) : x = res ∧ y = q := by
  injection h with h1
  injection h1 with h1 h2
  exact ⟨h1, h2⟩

/-- The parser cursor only moves forward, and the token sequence is never
modified, whatever call `parseRun` starts from. -/
theorem parseRun_mono : ∀ fuel c res p', parseRun fuel c = some (res, p') →
    (PCall.pstate c).current ≤ p'.current ∧ p'.tokens = (PCall.pstate c).tokens := by
  intro fuel
  induction fuel with
  | zero => intro c res p' h; simp [parseRun] at h
  | succ fuel ih =>
    intro c res p' h
    rcases c with p | p | ⟨p, map⟩ | p | ⟨p, arr⟩ <;>
      simp only [parseRun, PCall.pstate] at h ⊢
    · -- parse_value dispatch
      split at h
      · obtain ⟨rfl, rfl⟩ := some_pair_inj h
        exact ⟨le_refl _, rfl⟩
      · have := ih _ _ _ h; simpa [PCall.pstate] using this
      · have := ih _ _ _ h; simpa [PCall.pstate] using this
      · obtain ⟨rfl, rfl⟩ := some_pair_inj h
        exact ⟨advance_current_mono p, advance_tokens p⟩
      · obtain ⟨rfl, rfl⟩ := some_pair_inj h
        exact ⟨advance_current_mono p, advance_tokens p⟩
      · obtain ⟨rfl, rfl⟩ := some_pair_inj h
        exact ⟨advance_current_mono p, advance_tokens p⟩
      · obtain ⟨rfl, rfl⟩ := some_pair_inj h
        exact ⟨advance_current_mono p, advance_tokens p⟩
      · obtain ⟨rfl, rfl⟩ := some_pair_inj h
        exact ⟨le_refl _, rfl⟩
    · -- objectStart
      have := ih _ _ _ h
      simp only [PCall.pstate] at this
      exact ⟨le_trans (advance_current_mono p) this.1, by rw [this.2, advance_tokens]⟩
    · -- objectLoop
      split at h
      · obtain ⟨rfl, rfl⟩ := some_pair_inj h
        exact ⟨le_refl _, rfl⟩
      · obtain ⟨rfl, rfl⟩ := some_pair_inj h
        exact ⟨advance_current_mono p, advance_tokens p⟩
      · split at h
        · rename_i p1 heq
          obtain ⟨rfl, rfl⟩ := some_pair_inj h
          obtain ⟨ht1, hc1⟩ := advance_pair p _ p1 heq
          exact ⟨hc1, ht1⟩
        · rename_i key p1 heq
          obtain ⟨ht1, hc1⟩ := advance_pair p _ p1 heq
          split at h
          · rename_i p2 heq2
            obtain ⟨ht2, hc2⟩ := advance_pair p1 _ p2 heq2
            split at h
            · exact absurd h (by simp)
            · rename_i e p3 hrun
              have h3 := ih _ _ _ hrun
              simp only [PCall.pstate] at h3
              obtain ⟨rfl, rfl⟩ := some_pair_inj h
              refine ⟨by omega, by rw [h3.2, ht2, ht1]⟩
            · rename_i v p3 hrun
              have h3 := ih _ _ _ hrun
              simp only [PCall.pstate] at h3
              split at h
              · have h4 := ih _ _ _ h
                simp only [PCall.pstate] at h4
                have hadv3 : p3.current ≤ p3.advance.2.current := advance_current_mono p3
                have hadv3t : p3.advance.2.tokens = p3.tokens := advance_tokens p3
                refine ⟨by omega, by rw [h4.2, hadv3t, h3.2, ht2, ht1]⟩
              · have h4 := ih _ _ _ h
                simp only [PCall.pstate] at h4
                refine ⟨by omega, by rw [h4.2, h3.2, ht2, ht1]⟩
              · obtain ⟨rfl, rfl⟩ := some_pair_inj h
                refine ⟨by omega, by rw [h3.2, ht2, ht1]⟩
              · obtain ⟨rfl, rfl⟩ := some_pair_inj h
                refine ⟨by omega, by rw [h3.2, ht2, ht1]⟩
          · rename_i fst p2 hneg heq2
            obtain ⟨ht2, hc2⟩ := advance_pair p1 _ p2 heq2
            obtain ⟨rfl, rfl⟩ := some_pair_inj h
            refine ⟨by omega, by rw [ht2, ht1]⟩
        · rename_i val p1 hneg heq
          obtain ⟨ht1, hc1⟩ := advance_pair p _ p1 heq
          obtain ⟨rfl, rfl⟩ := some_pair_inj h
          exact ⟨hc1, ht1⟩
    · -- arrayStart
      have := ih _ _ _ h
      simp only [PCall.pstate] at this
      exact ⟨le_trans (advance_current_mono p) this.1, by rw [this.2, advance_tokens]⟩
    · -- arrayLoop
      split at h
      · obtain ⟨rfl, rfl⟩ := some_pair_inj h
        exact ⟨le_refl _, rfl⟩
      · obtain ⟨rfl, rfl⟩ := some_pair_inj h
        exact ⟨advance_current_mono p, advance_tokens p⟩
      · split at h
        · exact absurd h (by simp)
        · rename_i e p1 hrun
          have h1 := ih _ _ _ hrun
          simp only [PCall.pstate] at h1
          obtain ⟨rfl, rfl⟩ := some_pair_inj h
          exact ⟨h1.1, h1.2⟩
        · rename_i v p1 hrun
          have h1 := ih _ _ _ hrun
          simp only [PCall.pstate] at h1
          split at h
          · have h2 := ih _ _ _ h
            simp only [PCall.pstate] at h2
            have hadv1 : p1.current ≤ p1.advance.2.current := advance_current_mono p1
            have hadv1t : p1.advance.2.tokens = p1.tokens := advance_tokens p1
            refine ⟨by omega, by rw [h2.2, hadv1t, h1.2]⟩
          · have h2 := ih _ _ _ h
            simp only [PCall.pstate] at h2
            refine ⟨by omega, by rw [h2.2, h1.2]⟩
          · obtain ⟨rfl, rfl⟩ := some_pair_inj h
            exact ⟨h1.1, h1.2⟩
          · obtain ⟨rfl, rfl⟩ := some_pair_inj h
            exact ⟨h1.1, h1.2⟩

theorem advance_pair_facts (p : Parser) (t : Option Token) (q : Parser)
    (h : p.advance = (t, q)) (hlt : p.current < p.tokens.length) :
    q.current = p.current + 1 ∧ q.tokens = p.tokens := by
  have hq : q = p.advance.2 := by rw [h]
  subst hq
  exact ⟨advance_current_succ p hlt, advance_tokens p⟩

/-- Fuel adequacy for the parser: starting from any call whose precondition
holds, fuel of at least `PCall.bound` makes `parseRun` return a result,
with a cursor that moved monotonically, never past the end of the token
sequence, and strictly forward whenever the result is a success. -/
theorem parseRun_adequate : ∀ fuel c, PCall.pre c → PCall.bound c ≤ fuel →
    ∃ res p', parseRun fuel c = some (res, p') ∧
      p'.tokens = (PCall.pstate c).tokens ∧
      (PCall.pstate c).current ≤ p'.current ∧
      p'.current ≤ (PCall.pstate c).tokens.length ∧
      (∀ v, res = .ok v → (PCall.pstate c).current < p'.current) := by
  intro fuel
  induction fuel with
  | zero =>
    intro c hpre hb
    exfalso
    rcases c with p | p | ⟨p, map⟩ | p | ⟨p, arr⟩ <;>
      simp only [PCall.pre, PCall.bound] at hpre hb <;> omega
  | succ fuel ih =>
    intro c hpre hb
    rcases c with p | p | ⟨p, map⟩ | p | ⟨p, arr⟩ <;>
      simp only [PCall.pre, PCall.bound, PCall.pstate] at hpre hb ⊢
    · -- value
      rcases hpk : p.peek with _ | t
      · exact ⟨.error "Fin inesperado de entrada", p, by simp [parseRun, hpk], rfl,
          le_refl _, hpre, fun v hv => by simp at hv⟩
      · have hlt := peek_some_lt p t hpk
        cases t
        case leftBrace =>
          obtain ⟨res, p', hrun, htok, hmono, hle, hstrict⟩ :=
            ih (.objectStart p) (by simpa [PCall.pre] using hlt)
              (by simp only [PCall.bound]; omega)
          simp only [PCall.pstate] at htok hmono hle hstrict
          exact ⟨res, p', by simp only [parseRun, hpk]; exact hrun, htok, hmono, hle, hstrict⟩
        case leftBracket =>
          obtain ⟨res, p', hrun, htok, hmono, hle, hstrict⟩ :=
            ih (.arrayStart p) (by simpa [PCall.pre] using hlt)
              (by simp only [PCall.bound]; omega)
          simp only [PCall.pstate] at htok hmono hle hstrict
          exact ⟨res, p', by simp only [parseRun, hpk]; exact hrun, htok, hmono, hle, hstrict⟩
        case string s =>
          exact ⟨.ok (.string s), p.advance.2, by simp [parseRun, hpk], advance_tokens p,
            advance_current_mono p, advance_current_le p hpre,
            fun v hv => by rw [advance_current_succ p hlt]; omega⟩
        case number n =>
          exact ⟨.ok (.number n), p.advance.2, by simp [parseRun, hpk], advance_tokens p,
            advance_current_mono p, advance_current_le p hpre,
            fun v hv => by rw [advance_current_succ p hlt]; omega⟩
        case boolean b =>
          exact ⟨.ok (.boolean b), p.advance.2, by simp [parseRun, hpk], advance_tokens p,
            advance_current_mono p, advance_current_le p hpre,
            fun v hv => by rw [advance_current_succ p hlt]; omega⟩
        case null =>
          exact ⟨.ok .null, p.advance.2, by simp [parseRun, hpk], advance_tokens p,
            advance_current_mono p, advance_current_le p hpre,
            fun v hv => by rw [advance_current_succ p hlt]; omega⟩
        all_goals
          exact ⟨.error "Token inesperado", p, by simp [parseRun, hpk], rfl,
            le_refl _, hpre, fun v hv => by simp at hv⟩
    · -- objectStart
      have hlt := hpre
      have hsucc := advance_current_succ p hlt
      have htok0 := advance_tokens p
      have hlentok : p.advance.2.tokens.length = p.tokens.length := by rw [htok0]
      obtain ⟨res, p', hrun, htok, hmono, hle, hstrict⟩ :=
        ih (.objectLoop p.advance.2 [])
          (by simp only [PCall.pre]; omega)
          (by simp only [PCall.bound]; omega)
      simp only [PCall.pstate] at htok hmono hle hstrict
      refine ⟨res, p', by simp only [parseRun]; exact hrun, by rw [htok, htok0],
        by omega, by omega, fun v hv => by have := hstrict v hv; omega⟩
    · -- objectLoop
      rcases hpk : p.peek with _ | t
      · exact ⟨.error "Objeto no cerrado correctamente", p, by simp [parseRun, hpk], rfl,
          le_refl _, hpre, fun v hv => by simp at hv⟩
      · have hlt := peek_some_lt p t hpk
        have hpk' : p.tokens[p.current]? = some t := hpk
        have hadv : p.advance = (some t, { tokens := p.tokens, current := p.current + 1 }) := by
          rw [advance_eq_of_lt p hlt, hpk']
        cases t
        case rightBrace =>
          exact ⟨.ok (.object map), p.advance.2, by simp [parseRun, hpk], advance_tokens p,
            advance_current_mono p, advance_current_le p hpre,
            fun v hv => by rw [advance_current_succ p hlt]; omega⟩
        case string key =>
          -- the deep member-parsing path
          rcases hct : Parser.advance { tokens := p.tokens, current := p.current + 1 } with ⟨ct, p2⟩
          have hq2 : p2 = (Parser.advance { tokens := p.tokens, current := p.current + 1 }).2 := by
            rw [hct]
          have hp2tok : p2.tokens = p.tokens := by rw [hq2]; exact advance_tokens _
          have hp2lo : p.current + 1 ≤ p2.current := by
            rw [hq2]; exact advance_current_mono ⟨p.tokens, p.current + 1⟩
          have hp2hi : p2.current ≤ p.tokens.length := by
            rw [hq2]; exact advance_current_le _ hlt
          have hp2len : p2.tokens.length = p.tokens.length := by rw [hp2tok]
          rcases ct with _ | ctok
          · -- advance returned none: not a colon
            refine ⟨.error "Se esperaba dos puntos", p2, ?_, hp2tok, by omega, by omega,
              fun v hv => by simp at hv⟩
            simp only [parseRun, hpk, hadv, hct]
          · cases ctok
            case colon =>
              obtain ⟨res3, p3, hrun3, htok3, hmono3, hle3, hstrict3⟩ :=
                ih (.value p2) (by simp only [PCall.pre]; omega)
                  (by simp only [PCall.bound]; omega)
              simp only [PCall.pstate] at htok3 hmono3 hle3 hstrict3
              have hp3len : p3.tokens.length = p.tokens.length := by rw [htok3, hp2tok]
              have hp3tok : p3.tokens = p.tokens := by rw [htok3, hp2tok]
              rcases res3 with e | v
              · refine ⟨.error e, p3, ?_, hp3tok, by omega, by omega,
                  fun v hv => by simp at hv⟩
                simp only [parseRun, hpk, hadv, hct, hrun3]
              · have hstr := hstrict3 v rfl
                rcases hpk3 : p3.peek with _ | u
                · refine ⟨.error "Objeto no cerrado correctamente", p3, ?_, hp3tok,
                    by omega, by omega, fun v hv => by simp at hv⟩
                  simp only [parseRun, hpk, hadv, hct, hrun3, hpk3]
                · have hlt3 : p3.current < p.tokens.length := by
                    have := peek_some_lt p3 u hpk3; omega
                  cases u
                  case comma =>
                    have hsucc3 : p3.advance.2.current = p3.current + 1 :=
                      advance_current_succ p3 (by omega)
                    have htok3' : p3.advance.2.tokens = p3.tokens := advance_tokens p3
                    have hlen3' : p3.advance.2.tokens.length = p.tokens.length := by
                      rw [htok3', hp3tok]
                    obtain ⟨res4, p4, hrun4, htok4, hmono4, hle4, hstrict4⟩ :=
                      ih (.objectLoop p3.advance.2 (insertAssoc map key v))
                        (by simp only [PCall.pre]; omega)
                        (by simp only [PCall.bound]; omega)
                    simp only [PCall.pstate] at htok4 hmono4 hle4 hstrict4
                    refine ⟨res4, p4, ?_, by rw [htok4, htok3', hp3tok], by omega, by omega,
                      fun w hw => by have := hstrict4 w hw; omega⟩
                    simp only [parseRun, hpk, hadv, hct, hrun3, hpk3]
                    exact hrun4
                  case rightBrace =>
                    obtain ⟨res4, p4, hrun4, htok4, hmono4, hle4, hstrict4⟩ :=
                      ih (.objectLoop p3 (insertAssoc map key v))
                        (by simp only [PCall.pre]; omega)
                        (by simp only [PCall.bound]; omega)
                    simp only [PCall.pstate] at htok4 hmono4 hle4 hstrict4
                    refine ⟨res4, p4, ?_, by rw [htok4, hp3tok], by omega, by omega,
                      fun w hw => by have := hstrict4 w hw; omega⟩
                    simp only [parseRun, hpk, hadv, hct, hrun3, hpk3]
                    exact hrun4
                  all_goals
                    refine ⟨.error "Se esperaba coma o llave de cierre", p3, ?_, hp3tok,
                      by omega, by omega, fun w hw => by simp at hw⟩ <;>
                    simp only [parseRun, hpk, hadv, hct, hrun3, hpk3]
            all_goals
              refine ⟨.error "Se esperaba dos puntos", p2, ?_, hp2tok, by omega, by omega,
                fun v hv => by simp at hv⟩ <;>
              simp only [parseRun, hpk, hadv, hct]
        all_goals
          refine ⟨.error "La key debe ser un string", ⟨p.tokens, p.current + 1⟩, ?_, rfl,
            by show p.current ≤ p.current + 1; omega,
            by show p.current + 1 ≤ p.tokens.length; omega, fun v hv => by simp at hv⟩ <;>
          simp only [parseRun, hpk, hadv]
    · -- arrayStart
      have hlt := hpre
      have hsucc := advance_current_succ p hlt
      have htok0 := advance_tokens p
      have hlentok : p.advance.2.tokens.length = p.tokens.length := by rw [htok0]
      obtain ⟨res, p', hrun, htok, hmono, hle, hstrict⟩ :=
        ih (.arrayLoop p.advance.2 [])
          (by simp only [PCall.pre]; omega)
          (by simp only [PCall.bound]; omega)
      simp only [PCall.pstate] at htok hmono hle hstrict
      refine ⟨res, p', by simp only [parseRun]; exact hrun, by rw [htok, htok0],
        by omega, by omega, fun v hv => by have := hstrict v hv; omega⟩
    · -- arrayLoop
      rcases hpk : p.peek with _ | t
      · exact ⟨.error "Array no cerrado correctamente", p, by simp [parseRun, hpk], rfl,
          le_refl _, hpre, fun v hv => by simp at hv⟩
      · have hlt := peek_some_lt p t hpk
        cases t
        case rightBracket =>
          exact ⟨.ok (.array arr), p.advance.2, by simp [parseRun, hpk], advance_tokens p,
            advance_current_mono p, advance_current_le p hpre,
            fun v hv => by rw [advance_current_succ p hlt]; omega⟩
        all_goals (
          obtain ⟨res1, p1, hrun1, htok1, hmono1, hle1, hstrict1⟩ :=
            ih (.value p) (by simp only [PCall.pre]; omega)
              (by simp only [PCall.bound]; omega)
          simp only [PCall.pstate] at htok1 hmono1 hle1 hstrict1
          have hp1len : p1.tokens.length = p.tokens.length := by rw [htok1]
          rcases res1 with e | v
          · refine ⟨.error e, p1, ?_, htok1, by omega, by omega, fun v hv => by simp at hv⟩
            simp only [parseRun, hpk, hrun1]
          · have hstr := hstrict1 v rfl
            rcases hpk1 : p1.peek with _ | u
            · refine ⟨.error "Array no cerrado correctamente", p1, ?_, htok1, by omega,
                by omega, fun v hv => by simp at hv⟩
              simp only [parseRun, hpk, hrun1, hpk1]
            · have hlt1 : p1.current < p.tokens.length := by
                have := peek_some_lt p1 u hpk1; omega
              cases u
              case comma =>
                have hsucc1 : p1.advance.2.current = p1.current + 1 :=
                  advance_current_succ p1 (by omega)
                have htok1' : p1.advance.2.tokens = p1.tokens := advance_tokens p1
                have hlen1' : p1.advance.2.tokens.length = p.tokens.length := by
                  rw [htok1', htok1]
                obtain ⟨res2, p2, hrun2, htok2, hmono2, hle2, hstrict2⟩ :=
                  ih (.arrayLoop p1.advance.2 (arr ++ [v]))
                    (by simp only [PCall.pre]; omega)
                    (by simp only [PCall.bound]; omega)
                simp only [PCall.pstate] at htok2 hmono2 hle2 hstrict2
                refine ⟨res2, p2, ?_, by rw [htok2, htok1', htok1], by omega, by omega,
                  fun w hw => by have := hstrict2 w hw; omega⟩
                simp only [parseRun, hpk, hrun1, hpk1]
                exact hrun2
              case rightBracket =>
                obtain ⟨res2, p2, hrun2, htok2, hmono2, hle2, hstrict2⟩ :=
                  ih (.arrayLoop p1 (arr ++ [v]))
                    (by simp only [PCall.pre]; omega)
                    (by simp only [PCall.bound]; omega)
                simp only [PCall.pstate] at htok2 hmono2 hle2 hstrict2
                refine ⟨res2, p2, ?_, by rw [htok2, htok1], by omega, by omega,
                  fun w hw => by have := hstrict2 w hw; omega⟩
                simp only [parseRun, hpk, hrun1, hpk1]
                exact hrun2
              all_goals
                refine ⟨.error "Se esperaba coma o corchete de cierre", p1, ?_, htok1,
                  by omega, by omega, fun w hw => by simp at hw⟩ <;>
                simp only [parseRun, hpk, hrun1, hpk1])

theorem lookupAssoc_insertAssoc (m : List (String × JsonValue)) (k : String) (v : JsonValue) :
    lookupAssoc (insertAssoc m k v) k = some v := by
  induction m with
  | nil => simp [insertAssoc, lookupAssoc]
  | cons hd tl ih =>
    obtain ⟨k', v'⟩ := hd
    by_cases hk : k' = k
    · simp [insertAssoc, lookupAssoc, hk]
    · simp [insertAssoc, lookupAssoc, hk, ih]

theorem parseRun_arrayLoop_order :
    ∀ fuel p acc v p', parseRun fuel (.arrayLoop p acc) = some (.ok v, p') →
      ∃ ys, v = JsonValue.array (acc ++ ys) := by
  intro fuel
  induction fuel with
  | zero => intro p acc v p' h; simp [parseRun] at h
  | succ fuel ih =>
    intro p acc v p' h
    simp only [parseRun] at h
    split at h
    · simp at h
    · simp only [Option.some.injEq, Prod.mk.injEq, Except.ok.injEq] at h
      exact ⟨[], by rw [← h.1, List.append_nil]⟩
    · split at h
      · exact absurd h (by simp)
      · simp at h
      · split at h
        · obtain ⟨ys, hys⟩ := ih _ _ _ _ h
          exact ⟨_, by rw [hys, List.append_assoc]⟩
        · obtain ⟨ys, hys⟩ := ih _ _ _ _ h
          exact ⟨_, by rw [hys, List.append_assoc]⟩
        · simp at h
        · simp at h

attribute [local semireducible] Rat.mul Rat.add Rat.inv Rat.sub

/-- C1 (counterexample): the claim says `parse(tokenize("{\"a\":1,}"))` returns a
"key must be string" error; in fact the pipeline succeeds, returning the
object with the single member, because the closing-brace check at the top of
the member loop runs before the key is read. -/
theorem claim_C1_counterexample :
    parseJson "\x7b\"a\":1,\x7d".data = .ok (.object [("a", .number 1)]) := by rfl

/-- C1 (amended): trailing-comma inputs do not return an error: the member
loop re-checks for the closing delimiter before reading a key/element, so
the closing token after the comma is consumed as a normal end of the
container; `[1,]` parses to the array `[1]` and `{"a":1,}` parses to the
object `{a: 1}`. -/
theorem claim_C1_amended :
    parseJson "[1,]".data = .ok (.array [.number 1]) ∧
    parseJson "\x7b\"a\":1,\x7d".data = .ok (.object [("a", .number 1)]) :=
  ⟨by rfl, by rfl⟩

/-- C2 (counterexample): the claim says parse success implies all tokens were
consumed; on the token sequence `[Number 1, Number 2]` parse succeeds with
the value `Number 1` while the cursor stopped at 1, strictly before the end
of the two-token sequence. -/
theorem claim_C2_counterexample :
    (Parser.new [Token.number 1, Token.number 2]).parse
      = some (.ok (.number 1), { tokens := [Token.number 1, Token.number 2], current := 1 }) ∧
    (1 : Nat) < [Token.number 1, Token.number 2].length :=
  ⟨by rfl, by decide⟩

/-- C2 (amended): parse reads the token sequence through a forward-only
cursor (the cursor of the final state is never before the starting one for
any run of the parser), but it consumes only the tokens of the first value:
a sequence containing extra tokens after a complete value parses
successfully to just the first value, leaving the trailing tokens unread. -/
theorem claim_C2_amended :
    ((Parser.new [Token.number 1, Token.number 2]).parse
      = some (.ok (.number 1), { tokens := [Token.number 1, Token.number 2], current := 1 })) ∧
    (∀ fuel c res p', parseRun fuel c = some (res, p') →
      (PCall.pstate c).current ≤ p'.current) :=
  ⟨by rfl, fun fuel c res p' h => (parseRun_mono fuel c res p' h).1⟩

theorem claim_C2_witness :
    (PCall.pstate (.value (Parser.new []))).current ≤ (Parser.new []).current :=
  claim_C2_amended.2 1 (.value (Parser.new []))
    (.error "Fin inesperado de entrada") (Parser.new []) (by rfl)

/-- C3: for every input that opens a string and reaches end of input before
an unescaped closing quote, `tokenize` returns `Ok` with a single String
token holding the characters read so far — no unclosed-string error exists;
a lone final backslash is silently dropped (second concrete instance). -/
theorem claim_C3_unterminated_string :
    (∀ l s, unterminatedScan l = some s →
      tokenize ('"' :: l) = .ok [Token.string (String.mk s)]) ∧
    tokenize "\"abc".data = .ok [Token.string "abc"] ∧
    tokenize "\"a\\".data = .ok [Token.string "a"] :=
  ⟨tokenize_unterminated, by rfl, by rfl⟩

theorem claim_C3_witness :
    tokenize ('"' :: ['a', 'b', 'c']) = .ok [Token.string (String.mk ['a', 'b', 'c'])] :=
  claim_C3_unterminated_string.1 ['a', 'b', 'c'] ['a', 'b', 'c'] (by rfl)

/-- C4: unclosed constructs abort with the corresponding "not closed" error,
never a partial value tree. -/
theorem claim_C4_unclosed_error :
    parseJson "\x7b".data = .error "Objeto no cerrado correctamente" ∧
    parseJson "[".data = .error "Array no cerrado correctamente" ∧
    parseJson "\x7b\"a\":1".data = .error "Objeto no cerrado correctamente" :=
  ⟨by rfl, by rfl, by rfl⟩

/-- C5: duplicate object keys follow last-write-wins with no error: the
duplicate-key input parses to an object with exactly one binding for the
key, holding the last value; in general, inserting a repeated key overwrites
the prior entry (looking up an inserted key always returns the new value). -/
theorem claim_C5_duplicate_keys :
    parseJson "\x7b\"a\":1,\"a\":2\x7d".data = .ok (.object [("a", .number 2)]) ∧
    (∀ m k v, lookupAssoc (insertAssoc m k v) k = some v) :=
  ⟨by rfl, lookupAssoc_insertAssoc⟩

/-- C6: the literal scanner consumes a fixed count of characters (4, 5, 4)
and compares exactly: a full literal tokenizes, inputs that end early yield
the "expected literal" errors, and `truex` captures `true` and then fails on
the stray `x` with the unexpected-character error. -/
theorem claim_C6_literal_matching :
    tokenize "true".data = .ok [Token.boolean true] ∧
    tokenize "tru".data = .error "Token inválido: esperaba true" ∧
    tokenize "fals".data = .error "Token inválido: esperaba false" ∧
    tokenize "nul".data = .error "Token inválido: esperaba null" ∧
    tokenize "truex".data = .error "Carácter inesperado: x" :=
  ⟨by rfl, by rfl, by rfl, by rfl, by rfl⟩

/-- C7: escape decoding maps the quote, backslash and slash to themselves
and `b f n r t` to their control characters; every other character after a
backslash (including `u`) is rejected, making `\uXXXX` a fatal
invalid-escape error; and the escaped-newline input parses to a String with
a literal newline between `a` and `b`. -/
theorem claim_C7_escapes :
    decodeEscape '"' = some '"' ∧
    decodeEscape '\\' = some '\\' ∧
    decodeEscape '/' = some '/' ∧
    decodeEscape 'b' = some '\x08' ∧
    decodeEscape 'f' = some '\x0c' ∧
    decodeEscape 'n' = some '\n' ∧
    decodeEscape 'r' = some '\r' ∧
    decodeEscape 't' = some '\t' ∧
    (∀ c : Char, c ∉ (['"', '\\', '/', 'b', 'f', 'n', 'r', 't'] : List Char) →
      decodeEscape c = none) ∧
    tokenize "\"\\u0041\"".data = .error "Secuencia de escape inválida" ∧
    parseJson "\"a\\nb\"".data = .ok (.string "a\nb") :=
  ⟨rfl, by decide, rfl, by decide, rfl, by decide, rfl, by decide,
    fun c hc => by unfold decodeEscape; split <;> simp_all,
    by rfl, by rfl⟩

theorem claim_C7_witness : decodeEscape 'u' = none :=
  claim_C7_escapes.2.2.2.2.2.2.2.2.1 'u' (by decide)

/-- C8: number scanning is greedy with deferred validation: the scanner
always consumes exactly the maximal run of number characters, and a run that
fails float parsing (such as `1.2.3`) yields the invalid-number error at
that step (the scan itself does not reject it earlier). -/
theorem claim_C8_number_scanning :
    (∀ l, scanNumRun l = (l.takeWhile isNumChar, l.dropWhile isNumChar)) ∧
    parseF64? "1.2.3".data = none ∧
    tokenize "1.2.3".data = .error "Número inválido" :=
  ⟨scanNumRun_spec, by rfl, by rfl⟩

/-- C9: array element order matches source order: `[1,2,3]` parses to the
array `[1, 2, 3]` exactly, and in general the array loop only ever appends
the elements it parses after the ones already accumulated, so a successful
array result extends its accumulator in order. -/
theorem claim_C9_array_order :
    parseJson "[1,2,3]".data = .ok (.array [.number 1, .number 2, .number 3]) ∧
    (∀ fuel p acc v p', parseRun fuel (.arrayLoop p acc) = some (.ok v, p') →
      ∃ ys, v = JsonValue.array (acc ++ ys)) :=
  ⟨by rfl, parseRun_arrayLoop_order⟩

theorem claim_C9_witness :
    ∃ ys, JsonValue.array [] = JsonValue.array ([] ++ ys) :=
  claim_C9_array_order.2 1 (Parser.new [Token.rightBracket]) [] (JsonValue.array [])
    ⟨[Token.rightBracket], 1⟩ (by rfl)

/-- C10: the parser is total: for every finite token sequence, `parse`
terminates with an Ok or Err result (the fuel supplied by `Parser.parse` is
never exhausted) and the final cursor never passes the end of the token
sequence (no out-of-bounds access). -/
theorem claim_C10_parser_total :
    ∀ ts : List Token, ∃ res p', (Parser.new ts).parse = some (res, p') ∧
      p'.current ≤ ts.length := by
  intro ts
  obtain ⟨res, p', hrun, htok, hmono, hle, hstrict⟩ :=
    parseRun_adequate (3 * ts.length + 1) (.value (Parser.new ts))
      (by simp [PCall.pre, Parser.new]) (by simp [PCall.bound, Parser.new])
  exact ⟨res, p', hrun, by simpa [PCall.pstate, Parser.new] using hle⟩
